import Mathlib

set_option maxHeartbeats 1600000

/-
Verification of the directory-tree renderer in `Phase2/store_os/struc.py`.

The script walks a filesystem subtree with `os.scandir`, sorts each
directory's entries by `e.name.lower()` (Python's `sorted` is a stable
sort), drops entries whose name starts with `.`, and appends one line per
entry to the mutable buffer `self.tree_str`, recursing into
subdirectories.  `print_directory_tree` catches any exception raised
during the walk and prints `Error generating directory tree: <msg>`.

Shallow embedding choices:
* A filesystem is an inductive tree `FSNode`.  A directory whose
  `os.scandir` call raises is `badDir name err` (the `err` string stands
  for the text `str(e)` of the raised OS exception); `scandir` on a plain
  file raises `NotADirectoryError`, abstracted here as a fixed message.
  Children are listed in the (arbitrary) order `os.scandir` yields them.
* Python's stable `sorted(entries, key=lambda e: e.name.lower())` is
  modelled with Mathlib's stable `List.insertionSort` under the
  case-insensitive key order; any two stable sorts by the same key agree.
  `str.lower` is modelled by `String.toLower` (code-point order on
  strings matches Python's `<`; `toLower` agrees on ASCII names).
* `self.tree_str` is threaded through the walk as an accumulator; the
  walk returns `(some err, partialText)` when a listing raises, matching
  the exception aborting `generate_tree` with the buffer holding the
  partial text, and `(none, fullText)` otherwise.
* `pathlib.Path(root_dir)` normalizes the textual path (POSIX rules:
  duplicate slashes and `.` components collapse, trailing slashes drop,
  the empty path becomes `.`, a double leading slash is kept); this is
  `normalizePath` below, so `f"{self.root_dir}"` is `normalizePath p`.
-/

namespace Struc

/-- A filesystem subtree as observed by `os.scandir`: a plain file, a
listable directory with its children in scandir order, or a directory
whose listing raises an OS error with description `err`. -/
inductive FSNode : Type where
  | file (name : String)
  | dir (name : String) (children : List FSNode)
  | badDir (name : String) (err : String)

/-- The `e.name` attribute of a scandir entry. -/
def FSNode.name : FSNode → String
  | .file n => n
  | .dir n _ => n
  | .badDir n _ => n

/-- The `e.is_dir()` test of a scandir entry. -/
def FSNode.isDir : FSNode → Bool
  | .file _ => false
  | .dir _ _ => true
  | .badDir _ _ => true

/-- `os.scandir` on a node: lists a directory's children, raises on a
directory with a listing error, raises `NotADirectoryError` on a file. -/
def scandir : FSNode → Except String (List FSNode)
  | .file n => .error ("Not a directory: " ++ n)
  | .dir _ cs => .ok cs
  | .badDir _ e => .error e

/-- Python's `str.lower`, per character (`Char.toLower` lowercases the
ASCII range, which is where Python and Unicode lowercasing agree). -/
def lowerChars (s : String) : List Char :=
  s.data.map Char.toLower

/-- Lexicographic `<=` on code-point lists: Python's string comparison. -/
def lexLe : List Char → List Char → Bool
  | [], _ => true
  | _ :: _, [] => false
  | a :: as, b :: bs =>
    if a < b then true else if b < a then false else lexLe as bs

/-- Lexicographic `<` on code-point lists: Python's strict string
comparison. -/
def lexLt : List Char → List Char → Bool
  | [], [] => false
  | [], _ :: _ => true
  | _ :: _, [] => false
  | a :: as, b :: bs =>
    if a < b then true else if b < a then false else lexLt as bs

theorem lexLe_trans :
    ∀ {x y z : List Char}, lexLe x y = true → lexLe y z = true →
      lexLe x z = true := by
  intro x
  induction x with
  | nil =>
    intro y z _ _
    rfl
  | cons a as ih =>
    intro y z hxy hyz
    cases y with
    | nil => simp [lexLe] at hxy
    | cons b bs =>
      cases z with
      | nil => simp [lexLe] at hyz
      | cons c cs =>
        rcases lt_trichotomy a b with h1 | h1 | h1
        · rcases lt_trichotomy b c with h2 | h2 | h2
          · have h3 : a < c := lt_trans h1 h2
            simp [lexLe, h3]
          · subst h2
            simp [lexLe, h1]
          · simp [lexLe, lt_asymm h2, h2] at hyz
        · subst h1
          simp only [lexLe, lt_irrefl, if_false] at hxy
          rcases lt_trichotomy a c with h2 | h2 | h2
          · simp [lexLe, h2]
          · subst h2
            simp only [lexLe, lt_irrefl, if_false] at hyz ⊢
            exact ih hxy hyz
          · simp [lexLe, lt_asymm h2, h2] at hyz
        · simp [lexLe, lt_asymm h1, h1] at hxy

theorem lexLe_total (x y : List Char) :
    lexLe x y = true ∨ lexLe y x = true := by
  induction x generalizing y with
  | nil =>
    left
    rfl
  | cons a as ih =>
    cases y with
    | nil =>
      right
      rfl
    | cons b bs =>
      rcases lt_trichotomy a b with h | h | h
      · left
        simp [lexLe, h]
      · subst h
        simp only [lexLe, lt_irrefl, if_false]
        exact ih bs
      · right
        simp [lexLe, h]

theorem lexLt_lexLe_asymm :
    ∀ {x y : List Char}, lexLt x y = true → lexLe y x = true → False := by
  intro x
  induction x with
  | nil =>
    intro y hlt hle
    cases y with
    | nil => simp [lexLt] at hlt
    | cons b bs => simp [lexLe] at hle
  | cons a as ih =>
    intro y hlt hle
    cases y with
    | nil => simp [lexLt] at hlt
    | cons b bs =>
      rcases lt_trichotomy a b with h | h | h
      · simp [lexLe, lt_asymm h, h] at hle
      · subst h
        simp only [lexLt, lt_irrefl, if_false] at hlt
        simp only [lexLe, lt_irrefl, if_false] at hle
        exact ih hlt hle
      · simp [lexLt, lt_asymm h, h] at hlt

/-- The sort key order of line 25 of `struc.py`:
`key=lambda e: e.name.lower()`, keys compared by Python string `<=`
(code points). -/
def keyLe (a b : FSNode) : Prop :=
  lexLe (lowerChars a.name) (lowerChars b.name) = true

/-- Strict version of the key order: `lower(a.name) < lower(b.name)`. -/
def keyLt (a b : FSNode) : Prop :=
  lexLt (lowerChars a.name) (lowerChars b.name) = true

instance : DecidableRel keyLe := fun _a _b =>
  inferInstanceAs (Decidable (_ = true))

instance : DecidableRel keyLt := fun _a _b =>
  inferInstanceAs (Decidable (_ = true))

instance : IsTotal FSNode keyLe := ⟨fun _a _b => lexLe_total _ _⟩

instance : IsTrans FSNode keyLe := ⟨fun _ _ _ h h' => lexLe_trans h h'⟩

theorem keyLe_trans {a b c : FSNode} (h : keyLe a b) (h' : keyLe b c) :
    keyLe a c :=
  lexLe_trans h h'

theorem keyLt_keyLe_asymm {a b : FSNode} (h : keyLt a b) (h' : keyLe b a) :
    False :=
  lexLt_lexLe_asymm h h'

/-- The test `e.name.startswith('.')` of line 28. -/
def startsWithDot (s : String) : Bool :=
  match s.data with
  | '.' :: _ => true
  | _ => false

/-- The hidden-entry filter of line 28: `not e.name.startswith('.')`. -/
def visible (e : FSNode) : Bool :=
  !(startsWithDot e.name)

/-- Lines 24-28 of `struc.py`: sort the scandir listing by the
case-insensitive key (stable), then drop hidden entries. -/
def sortFilter (cs : List FSNode) : List FSNode :=
  (cs.insertionSort keyLe).filter visible

mutual

/-- Size of a node, for termination of the walk. -/
def sizeN : FSNode → Nat
  | .file _ => 1
  | .badDir _ _ => 1
  | .dir _ cs => 1 + sizeL cs

/-- Total size of a scandir listing. -/
def sizeL : List FSNode → Nat
  | [] => 0
  | c :: cs => sizeN c + sizeL cs

end

theorem sizeN_pos (fs : FSNode) : 1 ≤ sizeN fs := by
  cases fs <;> simp [sizeN]

theorem sizeL_eq_sum (l : List FSNode) : sizeL l = (l.map sizeN).sum := by
  induction l with
  | nil => rfl
  | cons c cs ih => simp [sizeL, ih]

theorem sizeL_filter_le (p : FSNode → Bool) (l : List FSNode) :
    sizeL (l.filter p) ≤ sizeL l := by
  induction l with
  | nil => simp [sizeL]
  | cons c cs ih =>
    simp only [List.filter_cons]
    by_cases h : p c = true
    · simp only [h, if_true, sizeL]
      omega
    · simp only [h, Bool.false_eq_true, if_false, sizeL]
      omega

theorem sizeL_perm {l l' : List FSNode} (h : l.Perm l') :
    sizeL l = sizeL l' := by
  rw [sizeL_eq_sum, sizeL_eq_sum]
  exact (h.map sizeN).sum_eq

theorem sizeL_sortFilter_le (cs : List FSNode) :
    sizeL (sortFilter cs) ≤ sizeL cs := by
  calc sizeL (sortFilter cs)
      ≤ sizeL (cs.insertionSort keyLe) :=
        sizeL_filter_le visible (cs.insertionSort keyLe)
    _ = sizeL cs := sizeL_perm (List.perm_insertionSort keyLe cs)

/-- Split a code-point list on `/` separators. -/
def splitOnSlash : List Char → List (List Char)
  | [] => [[]]
  | c :: cs =>
    match splitOnSlash cs with
    | [] => [[c]]
    | h :: t => if c = '/' then [] :: h :: t else (c :: h) :: t

/-- Join components with a single `/`. -/
def joinSlash : List (List Char) → List Char
  | [] => []
  | [x] => x
  | x :: y :: t => x ++ '/' :: joinSlash (y :: t)

/-- `pathlib` path normalization, as performed by `Path(root_dir)` on
line 8 and rendered back by `f"{self.root_dir}"` on line 17 (POSIX
rules): duplicate slashes and `.` components collapse, trailing slashes
drop, the empty relative path prints as `.`, and a leading `//` (exactly
two slashes, which POSIX reserves) survives while three or more collapse
to one. -/
def normalizePath (p : String) : String :=
  let root : List Char :=
    match p.data with
    | '/' :: '/' :: '/' :: _ => ['/']
    | '/' :: '/' :: _ => ['/', '/']
    | '/' :: _ => ['/']
    | _ => []
  match (splitOnSlash p.data).filter
      (fun q => !(q.isEmpty) && !(q == ['.'])) with
  | [] => if root.isEmpty then "." else ⟨root⟩
  | q :: qs => ⟨root ++ joinSlash (q :: qs)⟩

mutual

/-- Lines 21-41 of `struc.py`, method `_walk_directory`, with
`self.tree_str` threaded as the accumulator `acc`.  The connector
strings are the constants `self.tee`/`self.last`/`self.branch` set in
`__init__` (line 40 hard-codes `"    "` rather than using
`self.indent`).  A raised listing error is returned as `some err`
together with the partial buffer, matching the exception unwinding the
recursion while `self.tree_str` keeps the lines appended so far. -/
def walk_directory (fs : FSNode) (pfx acc : String) :
    Option String × String :=
  match fs with
  | .file n => (some ("Not a directory: " ++ n), acc)
  | .badDir _ e => (some e, acc)
  | .dir _ cs => walkEntries (sortFilter cs) pfx acc
termination_by (sizeN fs, 0)
decreasing_by
  apply Prod.Lex.left
  calc sizeL (sortFilter cs) ≤ sizeL cs := sizeL_sortFilter_le cs
    _ < sizeN (FSNode.dir _ cs) := by simp [sizeN]

/-- The `for idx, entry in enumerate(entries)` loop of lines 31-41:
`is_last` holds exactly when no entries remain after the current one. -/
def walkEntries (l : List FSNode) (pfx acc : String) :
    Option String × String :=
  match l with
  | [] => (none, acc)
  | e :: rest =>
    if e.isDir then
      match walk_directory e (pfx ++ (if rest.isEmpty then "    " else "│   "))
          (acc ++ pfx ++ (if rest.isEmpty then "└── " else "├── ") ++
            e.name ++ "\n") with
      | (some err, acc2) => (some err, acc2)
      | (none, acc2) => walkEntries rest pfx acc2
    else
      walkEntries rest pfx
        (acc ++ pfx ++ (if rest.isEmpty then "└── " else "├── ") ++
          e.name ++ "\n")
termination_by (sizeL l, 1)
decreasing_by
  · rcases Nat.eq_zero_or_pos (sizeL cs) with h0 | h0
    · have he : sizeN c = sizeL (c :: cs) := by
        simp [sizeL, h0]
      rw [he]
      exact Prod.Lex.right _ (by omega)
    · apply Prod.Lex.left
      simp only [sizeL]
      omega
  · apply Prod.Lex.left
    simp only [sizeL]
    have := sizeN_pos c
    omega
  · apply Prod.Lex.left
    simp only [sizeL]
    have := sizeN_pos c
    omega

end

/-- The `DirectoryTree` object: `root_dir` is the already-normalized
`Path(root_dir)` of `__init__`, `tree_str` the mutable output buffer.
The four connector-string fields are constants and are inlined in the
walker. -/
structure DirectoryTree where
  root_dir : String
  tree_str : String

/-- `DirectoryTree.__init__` (lines 7-13): wrap the path in `Path` and
start with an empty buffer. -/
def DirectoryTree.ofPath (p : String) : DirectoryTree :=
  { root_dir := normalizePath p, tree_str := "" }

/-- `generate_tree` (lines 15-19): reset `self.tree_str` to the root
line, walk the root listing with empty prefix, and return the buffer.
The `Except` carries the raised exception when the walk fails; the
second component is the object after the call (its buffer holds the
partial text in that case, but the method call itself raises). -/
def DirectoryTree.generate_tree (t : DirectoryTree) (fs : FSNode) :
    Except String String × DirectoryTree :=
  match walk_directory fs "" (t.root_dir ++ "\n") with
  | (none, s) => (.ok s, { t with tree_str := s })
  | (some e, s) => (.error e, { t with tree_str := s })

/-- The string returned by a successful `generate_tree` on a fresh
`DirectoryTree(path)`, or the raised exception text. -/
def render (p : String) (fs : FSNode) : Except String String :=
  ((DirectoryTree.ofPath p).generate_tree fs).1

/-- `print_directory_tree` (lines 44-50): the exact text written to
standard output, including the trailing newline `print` appends to its
argument. -/
def print_directory_tree (p : String) (fs : FSNode) : String :=
  match render p fs with
  | .ok s => s ++ "\n"
  | .error e => "Error generating directory tree: " ++ e ++ "\n"

mutual

/-- The description of the first listing error the walk runs into, in
traversal order (sorted visible entries, depth first), `none` when every
listing succeeds.  This is the specification-side characterization of
which exception escapes `_walk_directory`. -/
def firstErr (fs : FSNode) : Option String :=
  match fs with
  | .file n => some ("Not a directory: " ++ n)
  | .badDir _ e => some e
  | .dir _ cs => firstErrEntries (sortFilter cs)
termination_by (sizeN fs, 0)
decreasing_by
  apply Prod.Lex.left
  calc sizeL (sortFilter cs) ≤ sizeL cs := sizeL_sortFilter_le cs
    _ < sizeN (FSNode.dir _ cs) := by simp [sizeN]

/-- First listing error among a rendered entry list, depth first. -/
def firstErrEntries (l : List FSNode) : Option String :=
  match l with
  | [] => none
  | e :: rest =>
    if e.isDir then
      match firstErr e with
      | some err => some err
      | none => firstErrEntries rest
    else firstErrEntries rest
termination_by (sizeL l, 1)
decreasing_by
  · rcases Nat.eq_zero_or_pos (sizeL cs) with h0 | h0
    · have he : sizeN c = sizeL (c :: cs) := by
        simp [sizeL, h0]
      rw [he]
      exact Prod.Lex.right _ (by omega)
    · apply Prod.Lex.left
      simp only [sizeL]
      omega
  · apply Prod.Lex.left
    simp only [sizeL]
    have := sizeN_pos c
    omega
  · apply Prod.Lex.left
    simp only [sizeL]
    have := sizeN_pos c
    omega

end

/-- Modelled from the spec's algorithm order (steps 2b-2c): exclude the
hidden children first, then sort the remainder case-insensitively.  The
code (lines 24-28) sorts first and filters second; claim C9 compares the
two. -/
def filterThenSort (cs : List FSNode) : List FSNode :=
  (cs.filter visible).insertionSort keyLe

/-- The text the walk appends below the root line: the walk run with
empty prefix and empty buffer. -/
def treeBody (fs : FSNode) : String :=
  (walk_directory fs "" "").2

mutual

/-- Number of visible (non-hidden) entries reachable from a node by
recursive descent, hidden subtrees excluded entirely. -/
def visCountN : FSNode → Nat
  | .file _ => 0
  | .badDir _ _ => 0
  | .dir _ cs => visCountL cs

/-- Visible entries reachable from a listing. -/
def visCountL : List FSNode → Nat
  | [] => 0
  | c :: cs => (if visible c then 1 + visCountN c else 0) + visCountL cs

end

/-- Number of newline characters in a string; every rendered line is
newline-terminated, so this counts lines. -/
def nlCount (s : String) : Nat :=
  s.data.count '\n'

mutual

/-- No entry name anywhere in the subtree contains a newline (a newline
inside a filename would split its rendered line in two). -/
def nlFreeN : FSNode → Bool
  | .file n => n.data.count '\n' == 0
  | .badDir n _ => n.data.count '\n' == 0
  | .dir n cs => (n.data.count '\n' == 0) && nlFreeL cs

/-- Newline-free names across a listing. -/
def nlFreeL : List FSNode → Bool
  | [] => true
  | c :: cs => nlFreeN c && nlFreeL cs

end

/-- A well-formed depth prefix: exactly `k` four-character groups, each
either the continuation bar `"│   "` or four spaces. -/
inductive GoodPfx : String → Nat → Prop where
  | nil : GoodPfx "" 0
  | bar {p : String} {k : Nat} : GoodPfx p k → GoodPfx (p ++ "│   ") (k + 1)
  | sp {p : String} {k : Nat} : GoodPfx p k → GoodPfx (p ++ "    ") (k + 1)

mutual

/-- The block rendering of an already sorted-and-filtered entry list at
prefix `pfx`, `k` directories below the root.  Each entry `e` of the
list, in list order, contributes the line `pfx ++ connector ++ e.name`
(so its line carries the prefix `pfx` with exactly `k` four-character
depth groups, `GoodPfx pfx k`) immediately followed by the rendering of
`e`'s own subtree one level deeper, and only then the blocks of the
later siblings.  A non-last entry (`mid`, `rest ≠ []`) gets the
`"├── "` connector and its subtree prefix extends `pfx` by the
continuation-bar group `"│   "`; the last entry (`fin`) gets `"└── "`
and the four-space group `"    "`: group `j` of a prefix is four spaces
exactly when the depth-`j` ancestor was the last visible sibling at its
level, and each recursive step extends the prefix by exactly one
group. -/
inductive RendersAt : String → Nat → List FSNode → String → Prop where
  | nil (pfx : String) (k : Nat) : RendersAt pfx k [] ""
  | mid {pfx : String} {k : Nat} (e : FSNode) (rest : List FSNode)
      (sub restS : String) :
      GoodPfx pfx k →
      rest ≠ [] →
      RendersSub (pfx ++ "│   ") (k + 1) e sub →
      RendersAt pfx k rest restS →
      RendersAt pfx k (e :: rest)
        (pfx ++ "├── " ++ e.name ++ "\n" ++ sub ++ restS)
  | fin {pfx : String} {k : Nat} (e : FSNode) (sub : String) :
      GoodPfx pfx k →
      RendersSub (pfx ++ "    ") (k + 1) e sub →
      RendersAt pfx k [e] (pfx ++ "└── " ++ e.name ++ "\n" ++ sub)

/-- The text rendered below an entry's own line: nothing for a file,
and for a directory the block rendering of its sorted visible children
at the extended prefix.  (A `badDir` aborts the walk, so it never
renders below its line in a successful walk and has no case here.) -/
inductive RendersSub : String → Nat → FSNode → String → Prop where
  | file (pfx : String) (k : Nat) (n : String) :
      RendersSub pfx k (.file n) ""
  | dir (pfx : String) (k : Nat) (n : String) (cs : List FSNode)
      (s : String) :
      RendersAt pfx k (sortFilter cs) s →
      RendersSub pfx k (.dir n cs) s

end

/-- The final name component of a path after `pathlib` normalization
(empty for a pure root path). -/
def lastComponent (p : String) : String :=
  match (splitOnSlash p.data).filter
      (fun q => !(q.isEmpty) && !(q == ['.'])) with
  | [] => ""
  | q :: qs => ⟨(q :: qs).getLast (List.cons_ne_nil q qs)⟩

/-- The directory tree of the spec's end-to-end example, children in
the scandir order `.hidden/`, `b.txt`, `A/`. -/
def exampleTree : FSNode :=
  FSNode.dir "root"
    [FSNode.dir ".hidden" [], FSNode.file "b.txt",
      FSNode.dir "A" [FSNode.file "c.txt"]]

/-- A tree whose only listing error sits two levels below the root. -/
def exampleErrTree : FSNode :=
  FSNode.dir "root"
    [FSNode.dir "sub" [FSNode.badDir "locked" "Permission denied"]]

theorem walk_file_eq (n pfx acc : String) :
    walk_directory (.file n) pfx acc =
      (some ("Not a directory: " ++ n), acc) := by
  rw [walk_directory]

theorem walk_badDir_eq (n err pfx acc : String) :
    walk_directory (.badDir n err) pfx acc = (some err, acc) := by
  rw [walk_directory]

theorem walk_dir_eq (n : String) (cs : List FSNode) (pfx acc : String) :
    walk_directory (.dir n cs) pfx acc =
      walkEntries (sortFilter cs) pfx acc := by
  rw [walk_directory]

theorem walkEntries_nil (pfx acc : String) :
    walkEntries [] pfx acc = (none, acc) := by
  rw [walkEntries]

theorem walkEntries_cons (e : FSNode) (rest : List FSNode)
    (pfx acc : String) :
    walkEntries (e :: rest) pfx acc =
      if e.isDir then
        match walk_directory e
            (pfx ++ (if rest.isEmpty then "    " else "│   "))
            (acc ++ pfx ++ (if rest.isEmpty then "└── " else "├── ") ++
              e.name ++ "\n") with
        | (some err, acc2) => (some err, acc2)
        | (none, acc2) => walkEntries rest pfx acc2
      else
        walkEntries rest pfx
          (acc ++ pfx ++ (if rest.isEmpty then "└── " else "├── ") ++
            e.name ++ "\n") := by
  rw [walkEntries]

/-- The walk only appends to the buffer: running it from `b ++ acc`
yields the same error outcome and the same appended text as running it
from `acc`, prefixed by `b`. -/
theorem walk_acc_append :
    (∀ (fs : FSNode) (pfx acc : String), ∀ b : String,
        walk_directory fs pfx (b ++ acc) =
          ((walk_directory fs pfx acc).1,
            b ++ (walk_directory fs pfx acc).2)) ∧
    (∀ (l : List FSNode) (pfx acc : String), ∀ b : String,
        walkEntries l pfx (b ++ acc) =
          ((walkEntries l pfx acc).1, b ++ (walkEntries l pfx acc).2)) := by
  apply walk_directory.mutual_induct
    (fun fs pfx acc => ∀ b : String,
      walk_directory fs pfx (b ++ acc) =
        ((walk_directory fs pfx acc).1, b ++ (walk_directory fs pfx acc).2))
    (fun l pfx acc => ∀ b : String,
      walkEntries l pfx (b ++ acc) =
        ((walkEntries l pfx acc).1, b ++ (walkEntries l pfx acc).2))
  · intro pfx acc n b
    rw [walk_file_eq, walk_file_eq]
  · intro pfx acc n err b
    rw [walk_badDir_eq, walk_badDir_eq]
  · intro pfx acc n cs ih b
    rw [walk_dir_eq, walk_dir_eq]
    exact ih b
  · intro pfx acc b
    rw [walkEntries_nil, walkEntries_nil]
  · intro pfx acc c cs hdir err acc2 hw ih b
    rw [walkEntries_cons, walkEntries_cons]
    cases hE : cs.isEmpty <;>
      simp [hE, hdir, String.append_assoc] at hw ih ⊢ <;>
      rw [ih, hw]
  · intro pfx acc c cs hdir acc2 hw ihw ih b
    rw [walkEntries_cons, walkEntries_cons]
    cases hE : cs.isEmpty <;>
      simp [hE, hdir, String.append_assoc] at hw ihw ⊢ <;>
      rw [ihw, hw] <;>
      simpa [String.append_assoc] using ih b
  · intro pfx acc c cs hdir ih b
    rw [walkEntries_cons, walkEntries_cons]
    cases hE : cs.isEmpty <;>
      simp [hE, hdir, String.append_assoc] at ih ⊢ <;>
      simpa [String.append_assoc] using ih b

theorem walk_directory_acc (fs : FSNode) (pfx acc : String) :
    walk_directory fs pfx acc =
      ((walk_directory fs pfx "").1,
        acc ++ (walk_directory fs pfx "").2) := by
  have h := walk_acc_append.1 fs pfx "" acc
  rwa [String.append_empty] at h

theorem walkEntries_acc (l : List FSNode) (pfx acc : String) :
    walkEntries l pfx acc =
      ((walkEntries l pfx "").1, acc ++ (walkEntries l pfx "").2) := by
  have h := walk_acc_append.2 l pfx "" acc
  rwa [String.append_empty] at h

theorem firstErr_file_eq (n : String) :
    firstErr (.file n) = some ("Not a directory: " ++ n) := by
  rw [firstErr]

theorem firstErr_badDir_eq (n e : String) :
    firstErr (.badDir n e) = some e := by
  rw [firstErr]

theorem firstErr_dir_eq (n : String) (cs : List FSNode) :
    firstErr (.dir n cs) = firstErrEntries (sortFilter cs) := by
  rw [firstErr]

theorem firstErrEntries_nil : firstErrEntries [] = none := by
  rw [firstErrEntries]

theorem firstErrEntries_cons (e : FSNode) (rest : List FSNode) :
    firstErrEntries (e :: rest) =
      if e.isDir then
        match firstErr e with
        | some err => some err
        | none => firstErrEntries rest
      else firstErrEntries rest := by
  rw [firstErrEntries]

/-- The error outcome of the walk is exactly the first listing error in
traversal order, whatever the prefix and buffer: listing errors
propagate through the recursion unmodified. -/
theorem walk_err_eq_firstErr :
    (∀ (fs : FSNode) (pfx acc : String),
        (walk_directory fs pfx acc).1 = firstErr fs) ∧
    (∀ (l : List FSNode) (pfx acc : String),
        (walkEntries l pfx acc).1 = firstErrEntries l) := by
  apply walk_directory.mutual_induct
    (fun fs pfx acc => (walk_directory fs pfx acc).1 = firstErr fs)
    (fun l pfx acc =>
      (walkEntries l pfx acc).1 = firstErrEntries l)
  · intro pfx acc n
    rw [walk_file_eq, firstErr_file_eq]
  · intro pfx acc n err
    rw [walk_badDir_eq, firstErr_badDir_eq]
  · intro pfx acc n cs ih
    rw [walk_dir_eq, firstErr_dir_eq]
    exact ih
  · intro pfx acc
    rw [walkEntries_nil, firstErrEntries_nil]
  · intro pfx acc c cs hdir err acc2 hw ih
    rw [walkEntries_cons, firstErrEntries_cons]
    cases hE : cs.isEmpty <;>
      simp [hE, hdir] at hw ih ⊢ <;>
      rw [hw] at ih ⊢ <;>
      simp at ih ⊢ <;>
      rw [← ih]
  · intro pfx acc c cs hdir acc2 hw ihw ih
    rw [walkEntries_cons, firstErrEntries_cons]
    cases hE : cs.isEmpty <;>
      simp [hE, hdir] at hw ihw ⊢ <;>
      rw [hw] at ihw ⊢ <;>
      simp at ihw ⊢ <;>
      rw [← ihw] <;>
      simp [ih]
  · intro pfx acc c cs hdir ih
    rw [walkEntries_cons, firstErrEntries_cons]
    simp [hdir]
    exact ih

theorem orderedInsert_of_le_head (a : FSNode) (l : List FSNode)
    (h : ∀ c, l.head? = some c → keyLe a c) :
    List.orderedInsert keyLe a l = a :: l := by
  cases l with
  | nil => rfl
  | cons b t => simp [List.orderedInsert, h b rfl]

theorem filter_orderedInsert (p : FSNode → Bool) (a : FSNode) :
    ∀ l : List FSNode, l.Sorted keyLe →
      (List.orderedInsert keyLe a l).filter p =
        if p a then List.orderedInsert keyLe a (l.filter p)
        else l.filter p := by
  intro l
  induction l with
  | nil =>
    intro _
    by_cases hp : p a = true <;>
      simp [List.orderedInsert, List.filter_cons, hp]
  | cons b t ih =>
    intro hsort
    have hb : ∀ c ∈ t, keyLe b c := List.rel_of_sorted_cons hsort
    have ht : t.Sorted keyLe := hsort.of_cons
    by_cases hab : keyLe a b
    · rw [show List.orderedInsert keyLe a (b :: t) = a :: b :: t by
        simp [List.orderedInsert, hab]]
      by_cases hp : p a = true
      · have hhead : ∀ c, ((b :: t).filter p).head? = some c → keyLe a c := by
          intro c hc
          have hcmem : c ∈ (b :: t).filter p := List.mem_of_mem_head? hc
          have hcmem' : c ∈ b :: t := List.mem_of_mem_filter hcmem
          rcases List.mem_cons.mp hcmem' with rfl | hct
          · exact hab
          · exact keyLe_trans hab (hb c hct)
        rw [if_pos hp, orderedInsert_of_le_head a _ hhead]
        simp [List.filter_cons, hp]
      · rw [if_neg hp]
        simp [List.filter_cons, hp]
    · have hba : keyLe b a := (IsTotal.total a b).resolve_left hab
      rw [show List.orderedInsert keyLe a (b :: t) =
          b :: List.orderedInsert keyLe a t by
        simp [List.orderedInsert, hab]]
      by_cases hp : p a = true <;> by_cases hpb : p b = true <;>
        simp [List.filter_cons, hp, hpb, ih ht, List.orderedInsert, hab]

theorem filter_insertionSort (p : FSNode → Bool) (l : List FSNode) :
    (l.insertionSort keyLe).filter p =
      (l.filter p).insertionSort keyLe := by
  induction l with
  | nil => rfl
  | cons a t ih =>
    rw [show (a :: t).insertionSort keyLe =
        List.orderedInsert keyLe a (t.insertionSort keyLe) by
      simp [List.insertionSort]]
    rw [filter_orderedInsert p a _ (List.sorted_insertionSort keyLe t), ih]
    by_cases hp : p a = true <;>
      simp [List.filter_cons, hp, List.insertionSort]

theorem sortFilter_sorted (cs : List FSNode) :
    (sortFilter cs).Sorted keyLe :=
  (List.sorted_insertionSort keyLe cs).filter visible

theorem sortFilter_eq_filterThenSort (cs : List FSNode) :
    sortFilter cs = (cs.filter visible).insertionSort keyLe := by
  rw [sortFilter, filter_insertionSort]

theorem sortFilter_filter_visible (cs : List FSNode) :
    sortFilter (cs.filter visible) = sortFilter cs := by
  rw [sortFilter_eq_filterThenSort, sortFilter_eq_filterThenSort,
    List.filter_filter]
  congr 1
  apply List.filter_congr
  intro c _
  exact Bool.and_self (visible c)

theorem mem_sortFilter_iff (c : FSNode) (cs : List FSNode) :
    c ∈ sortFilter cs ↔ c ∈ cs ∧ visible c = true := by
  rw [sortFilter]
  rw [List.mem_filter]
  constructor
  · rintro ⟨h1, h2⟩
    exact ⟨(List.perm_insertionSort keyLe cs).subset h1, h2⟩
  · rintro ⟨h1, h2⟩
    exact ⟨(List.perm_insertionSort keyLe cs).mem_iff.mpr h1, h2⟩

theorem sortFilter_eq_nil_of_hidden (cs : List FSNode)
    (h : ∀ c ∈ cs, startsWithDot c.name = true) :
    sortFilter cs = [] := by
  rw [List.eq_nil_iff_forall_not_mem]
  intro c hc
  rcases (mem_sortFilter_iff c cs).mp hc with ⟨hmem, hvis⟩
  rw [visible, h c hmem] at hvis
  simp at hvis

theorem walk_root_decomp (p : String) (fs : FSNode) :
    walk_directory fs "" (normalizePath p ++ "\n") =
      (firstErr fs, (normalizePath p ++ "\n") ++ treeBody fs) := by
  rw [walk_directory_acc fs "" (normalizePath p ++ "\n"),
    walk_err_eq_firstErr.1 fs "" ""]
  rfl

theorem render_eq (p : String) (fs : FSNode) :
    render p fs =
      match firstErr fs with
      | none => Except.ok ((normalizePath p ++ "\n") ++ treeBody fs)
      | some e => Except.error e := by
  cases h : firstErr fs <;>
    simp [render, DirectoryTree.ofPath, DirectoryTree.generate_tree,
      walk_root_decomp, h]

/-- C2: any listing error raised during the walk propagates unmodified
through the recursion (the walk's outcome carries exactly the first
error hit, in traversal order), is caught once in
`print_directory_tree`, and is printed as
`Error generating directory tree: <description>` on standard output
instead of being re-raised. -/
theorem C2_error_propagation (fs : FSNode) (p e : String)
    (h : firstErr fs = some e) :
    render p fs = Except.error e ∧
    print_directory_tree p fs =
      "Error generating directory tree: " ++ e ++ "\n" := by
  have hr : render p fs = Except.error e := by
    rw [render_eq, h]
  refine ⟨hr, ?_⟩
  rw [print_directory_tree, hr]

/-- C2 witness: a listing error two directories below the root escapes
to the top and is printed verbatim inside the error message. -/
theorem C2_error_propagation_witness :
    firstErr exampleErrTree = some "Permission denied" ∧
    render "root" exampleErrTree = Except.error "Permission denied" ∧
    print_directory_tree "root" exampleErrTree =
      "Error generating directory tree: " ++ "Permission denied" ++ "\n" := by
  have h : firstErr exampleErrTree = some "Permission denied" := by
    simp only [exampleErrTree, firstErr_dir_eq,
      show sortFilter [FSNode.dir "sub" [FSNode.badDir "locked"
        "Permission denied"]] =
        [FSNode.dir "sub" [FSNode.badDir "locked" "Permission denied"]]
        from rfl,
      show sortFilter [FSNode.badDir "locked" "Permission denied"] =
        [FSNode.badDir "locked" "Permission denied"] from rfl,
      firstErrEntries_cons, FSNode.isDir, if_true, firstErr_badDir_eq]
  exact ⟨h, (C2_error_propagation exampleErrTree "root" _ h).1,
    (C2_error_propagation exampleErrTree "root" _ h).2⟩

/-- C4 as stated is false: `print` appends one more newline after the
rendered tree's final newline, so standard output is not the rendered
tree with nothing after it.  For an empty root directory the tree is
`"root\n"` but stdout is `"root\n\n"`. -/
theorem C4_counterexample :
    render "root" (FSNode.dir "root" []) = Except.ok "root\n" ∧
    print_directory_tree "root" (FSNode.dir "root" []) = "root\n\n" ∧
    "root\n\n" ≠ "root\n" := by
  have h1 : render "root" (FSNode.dir "root" []) = Except.ok "root\n" := by
    simp only [render, DirectoryTree.ofPath, DirectoryTree.generate_tree,
      walk_dir_eq, show sortFilter ([] : List FSNode) = [] from rfl,
      walkEntries_nil]
    simp only [Except.ok.injEq]
    decide
  refine ⟨h1, ?_, by decide⟩
  rw [print_directory_tree, h1]
  decide

/-- C4 amended: on success the command-line entry point writes the
rendered tree followed by exactly one extra newline (appended by
`print`), and nothing else. -/
theorem C4_stdout_amended (p : String) (fs : FSNode) (s : String)
    (h : render p fs = Except.ok s) :
    print_directory_tree p fs = s ++ "\n" := by
  rw [print_directory_tree, h]

/-- C4 witness: the amended statement at the empty root directory. -/
theorem C4_stdout_amended_witness :
    render "root" (FSNode.dir "root" []) = Except.ok "root\n" ∧
    print_directory_tree "root" (FSNode.dir "root" []) =
      "root\n" ++ "\n" := by
  have h1 : render "root" (FSNode.dir "root" []) = Except.ok "root\n" := by
    simp only [render, DirectoryTree.ofPath, DirectoryTree.generate_tree,
      walk_dir_eq, show sortFilter ([] : List FSNode) = [] from rfl,
      walkEntries_nil]
    simp only [Except.ok.injEq]
    decide
  exact ⟨h1, C4_stdout_amended "root" (FSNode.dir "root" []) "root\n" h1⟩

/-- C5: hidden entries are removed before the last-sibling index is
computed, so walking any listing is identical to walking the listing
with its hidden entries already removed (connectors included); and a
directory whose entries are all hidden renders as the root line alone. -/
theorem C5_hidden_before_isLast :
    (∀ (cs : List FSNode) (pfx acc : String),
        walkEntries (sortFilter cs) pfx acc =
          walkEntries (sortFilter (cs.filter visible)) pfx acc) ∧
    (∀ (p n : String) (cs : List FSNode),
        (∀ c ∈ cs, startsWithDot c.name = true) →
        render p (FSNode.dir n cs) =
          Except.ok (normalizePath p ++ "\n")) := by
  constructor
  · intro cs pfx acc
    rw [sortFilter_filter_visible]
  · intro p n cs h
    have hnil := sortFilter_eq_nil_of_hidden cs h
    have hfe : firstErr (FSNode.dir n cs) = none := by
      rw [firstErr_dir_eq, hnil, firstErrEntries_nil]
    have hbody : treeBody (FSNode.dir n cs) = "" := by
      rw [treeBody, walk_dir_eq, hnil, walkEntries_nil]
    rw [render_eq, hfe]
    simp [hbody, String.append_empty]

/-- C5 witness: a directory with only hidden entries renders as the
single root line. -/
theorem C5_hidden_before_isLast_witness :
    (∀ c ∈ [FSNode.file ".secret", FSNode.dir ".git" []],
      startsWithDot c.name = true) ∧
    render "vault" (FSNode.dir "vault"
      [FSNode.file ".secret", FSNode.dir ".git" []]) =
      Except.ok ("vault" ++ "\n") := by
  have h : ∀ c ∈ [FSNode.file ".secret", FSNode.dir ".git" []],
      startsWithDot c.name = true := by decide
  have h2 := C5_hidden_before_isLast.2 "vault" "vault"
    [FSNode.file ".secret", FSNode.dir ".git" []] h
  have hn : normalizePath "vault" = "vault" := rfl
  rw [hn] at h2
  exact ⟨h, h2⟩

/-- C8: `generate_tree` starts by overwriting `self.tree_str` with the
root line (line 17), so a second call on the same object neither
accumulates onto the first result nor differs from it: it returns the
same string (and raises the same error) and leaves the object in the
same state. -/
theorem C8_generate_tree_idempotent (p : String) (fs : FSNode) :
    ((DirectoryTree.ofPath p).generate_tree fs).2.generate_tree fs =
      (DirectoryTree.ofPath p).generate_tree fs := by
  rcases hw : walk_directory fs "" (normalizePath p ++ "\n") with ⟨err, s2⟩
  cases err <;>
    simp [DirectoryTree.generate_tree, DirectoryTree.ofPath, hw]

/-- C9: sorting first and filtering second (the code's order, lines
24-28) yields the same entry list as filtering first and sorting second
(the spec's order): filtering a stably sorted list keeps it sorted, so
the rendered output is identical. -/
theorem C9_sort_filter_refinement (cs : List FSNode) :
    sortFilter cs = filterThenSort cs ∧
    (sortFilter cs).Sorted keyLe ∧
    ∀ pfx acc : String,
      walkEntries (sortFilter cs) pfx acc =
        walkEntries (filterThenSort cs) pfx acc := by
  have he : sortFilter cs = filterThenSort cs := by
    rw [sortFilter_eq_filterThenSort, filterThenSort]
  exact ⟨he, sortFilter_sorted cs, fun pfx acc => by rw [he]⟩

/-- C10: the hidden-entry filter applies only to children met during
the walk, never to the root path itself: even when the root path's
final component starts with a dot, the output still opens with the root
line and continues with the ordinary walk of the root's children. -/
theorem C10_hidden_root_rendered (p : String) (fs : FSNode)
    (h : startsWithDot (lastComponent p) = true) :
    ∀ s : String,
      render p fs = Except.ok s ↔
        firstErr fs = none ∧
          s = normalizePath p ++ "\n" ++ treeBody fs := by
  intro s
  rw [render_eq]
  cases hfe : firstErr fs <;> simp [hfe, eq_comm]

/-- C10 witness: a dot-named root still renders its line and child. -/
theorem C10_hidden_root_rendered_witness :
    startsWithDot (lastComponent ".hidden") = true ∧
    render ".hidden" (FSNode.dir "h" [FSNode.file "a.txt"]) =
      Except.ok (normalizePath ".hidden" ++ "\n" ++
        treeBody (FSNode.dir "h" [FSNode.file "a.txt"])) := by
  have h : startsWithDot (lastComponent ".hidden") = true := by decide
  refine ⟨h, ?_⟩
  apply (C10_hidden_root_rendered ".hidden" _ h _).mpr
  refine ⟨?_, rfl⟩
  simp only [firstErr_dir_eq,
    show sortFilter [FSNode.file "a.txt"] = [FSNode.file "a.txt"] from rfl,
    firstErrEntries_cons, FSNode.isDir, Bool.false_eq_true, if_false,
    firstErrEntries_nil]

theorem lexLe_refl (x : List Char) : lexLe x x = true := by
  induction x with
  | nil => rfl
  | cons a as ih => simp [lexLe, lt_irrefl, ih]

theorem keyLe_refl (a : FSNode) : keyLe a a :=
  lexLe_refl _

/-- C1: the spec's end-to-end example.  With scandir order `.hidden/`,
`b.txt`, `A/` (and `c.txt` inside `A`), rendering `"root"` yields
exactly the four lines `root`, `├── A`, `│   └── c.txt`, `└── b.txt` in
that order: `A` sorts before `b.txt` case-insensitively, `.hidden` is
excluded entirely, `A` is not last so gets `├── ` and the `│   `
continuation, `c.txt` and `b.txt` are last so get `└── `. -/
theorem C1_example_render :
    render "root" exampleTree =
      Except.ok ("root\n" ++ "├── A\n" ++ "│   └── c.txt\n" ++
        "└── b.txt\n") := by
  have hsf : sortFilter [FSNode.dir ".hidden" [], FSNode.file "b.txt",
      FSNode.dir "A" [FSNode.file "c.txt"]] =
      [FSNode.dir "A" [FSNode.file "c.txt"], FSNode.file "b.txt"] := rfl
  have hsf2 : sortFilter [FSNode.file "c.txt"] = [FSNode.file "c.txt"] := rfl
  simp only [exampleTree, render, DirectoryTree.ofPath,
    DirectoryTree.generate_tree, walk_dir_eq, hsf, hsf2, walkEntries_cons,
    walkEntries_nil, walk_file_eq, FSNode.isDir, FSNode.name,
    List.isEmpty_cons, List.isEmpty_nil, if_true, if_false,
    Bool.false_eq_true]
  simp only [Except.ok.injEq]
  decide

/-- C6: sibling ordering in the rendered output.  (i) The processed
entry list of every directory is sorted: a strictly smaller
case-insensitive key means a strictly smaller position, so the
smaller-keyed sibling is processed strictly first.  (ii) A successful
loop step factors exactly: the final buffer equals the walk of the
remaining siblings started from the buffer that already ends with the
head entry's connector line followed by its entire subtree text — every
line of the head entry and of its subtree is in place before anything
for the later siblings.  (iii) The walk only ever appends to its
buffer, so all text emitted for the later siblings (in particular a
later sibling's own line) sits strictly after that point in the
output. -/
theorem C6_siblings_sorted :
    (∀ (cs : List FSNode) (i j : Fin (sortFilter cs).length),
        keyLt ((sortFilter cs).get i) ((sortFilter cs).get j) →
        (i : Nat) < (j : Nat)) ∧
    (∀ (e : FSNode) (rest : List FSNode) (pfx acc s : String),
        walkEntries (e :: rest) pfx acc = (none, s) →
        walkEntries rest pfx
          (acc ++ pfx ++ (if rest.isEmpty then "└── " else "├── ") ++
            e.name ++ "\n" ++
            (if e.isDir then
              (walk_directory e
                (pfx ++ (if rest.isEmpty then "    " else "│   "))
                "").2
             else "")) = (none, s)) ∧
    (∀ (l : List FSNode) (pfx acc : String) (r : Option String)
        (s : String),
        walkEntries l pfx acc = (r, s) → ∃ t, s = acc ++ t) := by
  refine ⟨?_, ?_, ?_⟩
  · intro cs i j hlt
    have hs : List.Pairwise keyLe (sortFilter cs) := sortFilter_sorted cs
    rcases Nat.lt_trichotomy (i : Nat) (j : Nat) with h | h | h
    · exact h
    · exfalso
      have hij : i = j := Fin.ext h
      subst hij
      exact keyLt_keyLe_asymm hlt (keyLe_refl _)
    · exfalso
      have hle : keyLe ((sortFilter cs).get j) ((sortFilter cs).get i) :=
        List.pairwise_iff_get.mp hs j i h
      exact keyLt_keyLe_asymm hlt hle
  · intro e rest pfx acc s hs
    rw [walkEntries_cons] at hs
    by_cases hd : e.isDir = true
    · simp only [hd, if_true] at hs ⊢
      rcases hw : walk_directory e
          (pfx ++ (if rest.isEmpty then "    " else "│   "))
          (acc ++ pfx ++ (if rest.isEmpty then "└── " else "├── ") ++
            e.name ++ "\n") with ⟨err, acc2⟩
      rw [hw] at hs
      cases err with
      | some err => simp at hs
      | none =>
        have hred : (match ((none : Option String), acc2) with
            | (some err, acc3) => (some err, acc3)
            | (none, acc3) => walkEntries rest pfx acc3) =
            walkEntries rest pfx acc2 := rfl
        rw [hred] at hs
        have ha := walk_directory_acc e
          (pfx ++ (if rest.isEmpty then "    " else "│   "))
          (acc ++ pfx ++ (if rest.isEmpty then "└── " else "├── ") ++
            e.name ++ "\n")
        rw [hw] at ha
        have h2 : acc2 =
            acc ++ pfx ++ (if rest.isEmpty then "└── " else "├── ") ++
              e.name ++ "\n" ++
              (walk_directory e
                (pfx ++ (if rest.isEmpty then "    " else "│   ")) "").2 :=
          congrArg Prod.snd ha
        rw [← h2]
        exact hs
    · simp only [hd, Bool.false_eq_true, if_false] at hs ⊢
      rw [String.append_empty]
      exact hs
  · intro l pfx acc r s hs
    have ha := walkEntries_acc l pfx acc
    rw [hs] at ha
    exact ⟨(walkEntries l pfx "").2, congrArg Prod.snd ha⟩

/-- C6 witness: in the example listing `A` (key `a`) precedes `b.txt`
(key `b.txt`); the loop over `[A, b.txt]` from the root line first
completes `A`'s line and subtree before walking `[b.txt]`; and the
output extends the starting buffer. -/
theorem C6_siblings_sorted_witness :
    (0 : Nat) < (1 : Nat) ∧
    walkEntries [FSNode.file "b.txt"] ""
      ("root\n" ++ "" ++
        (if ([FSNode.file "b.txt"] : List FSNode).isEmpty then "└── "
         else "├── ") ++
        (FSNode.dir "A" [FSNode.file "c.txt"]).name ++ "\n" ++
        (if (FSNode.dir "A" [FSNode.file "c.txt"]).isDir then
          (walk_directory (FSNode.dir "A" [FSNode.file "c.txt"])
            ("" ++ (if ([FSNode.file "b.txt"] : List FSNode).isEmpty
              then "    " else "│   ")) "").2
         else "")) =
      (none, "root\n├── A\n│   └── c.txt\n└── b.txt\n") ∧
    ∃ t : String,
      ("root\n├── A\n│   └── c.txt\n└── b.txt\n" : String) =
        "root\n" ++ t := by
  have hsf2 : sortFilter [FSNode.file "c.txt"] = [FSNode.file "c.txt"] := rfl
  have heval : walkEntries
      [FSNode.dir "A" [FSNode.file "c.txt"], FSNode.file "b.txt"]
      "" "root\n" =
      (none, "root\n├── A\n│   └── c.txt\n└── b.txt\n") := by
    simp only [walkEntries_cons, walkEntries_nil, walk_dir_eq, hsf2,
      walk_file_eq, FSNode.isDir, FSNode.name, List.isEmpty_cons,
      List.isEmpty_nil, if_true, if_false, Bool.false_eq_true]
    simp only [Prod.mk.injEq]
    refine ⟨trivial, ?_⟩
    decide
  refine ⟨?_, ?_, ?_⟩
  · exact C6_siblings_sorted.1
      [FSNode.dir ".hidden" [], FSNode.file "b.txt",
        FSNode.dir "A" [FSNode.file "c.txt"]]
      ⟨0, by decide⟩ ⟨1, by decide⟩ (by decide)
  · exact C6_siblings_sorted.2.1 (FSNode.dir "A" [FSNode.file "c.txt"])
      [FSNode.file "b.txt"] "" "root\n" _ heval
  · exact C6_siblings_sorted.2.2
      [FSNode.dir "A" [FSNode.file "c.txt"], FSNode.file "b.txt"]
      "" "root\n" none _ heval

theorem nlCount_append (a b : String) :
    nlCount (a ++ b) = nlCount a + nlCount b := by
  rw [nlCount, nlCount, nlCount, String.data_append, List.count_append]

theorem visCountN_of_not_isDir {c : FSNode} (h : ¬ c.isDir = true) :
    visCountN c = 0 := by
  cases c with
  | file n => rfl
  | dir n cs => simp [FSNode.isDir] at h
  | badDir n e => simp [FSNode.isDir] at h

theorem visCountL_eq_sum (l : List FSNode) :
    visCountL l =
      (l.map (fun c => if visible c then 1 + visCountN c else 0)).sum := by
  induction l with
  | nil => rfl
  | cons c cs ih => simp [visCountL, ih]

theorem visCountL_perm {l l' : List FSNode} (h : l.Perm l') :
    visCountL l = visCountL l' := by
  rw [visCountL_eq_sum, visCountL_eq_sum]
  exact (h.map _).sum_eq

theorem visCountL_filter_visible (l : List FSNode) :
    visCountL (l.filter visible) = visCountL l := by
  induction l with
  | nil => rfl
  | cons c cs ih =>
    cases hv : visible c <;>
      simp [List.filter_cons, hv, visCountL, ih]

theorem visCountL_sortFilter (cs : List FSNode) :
    visCountL (sortFilter cs) = visCountL cs := by
  rw [sortFilter, visCountL_filter_visible]
  exact visCountL_perm (List.perm_insertionSort keyLe cs)

theorem nlFreeL_mem {l : List FSNode} {c : FSNode} (hc : c ∈ l)
    (h : nlFreeL l = true) : nlFreeN c = true := by
  induction l with
  | nil => simp at hc
  | cons d ds ih =>
    rw [nlFreeL, Bool.and_eq_true] at h
    rcases List.mem_cons.mp hc with rfl | hc'
    · exact h.1
    · exact ih hc' h.2

theorem nlFreeN_name {c : FSNode} (h : nlFreeN c = true) :
    nlCount c.name = 0 := by
  cases c with
  | file n =>
    simp only [nlFreeN, beq_iff_eq] at h
    simpa [nlCount, FSNode.name] using h
  | dir n cs =>
    simp only [nlFreeN, Bool.and_eq_true, beq_iff_eq] at h
    simpa [nlCount, FSNode.name] using h.1
  | badDir n e =>
    simp only [nlFreeN, beq_iff_eq] at h
    simpa [nlCount, FSNode.name] using h

theorem nlFreeN_children {n : String} {cs : List FSNode}
    (h : nlFreeN (.dir n cs) = true) : nlFreeL cs = true := by
  rw [nlFreeN, Bool.and_eq_true] at h
  exact h.2

theorem nlCount_tee : nlCount "├── " = 0 := by decide

theorem nlCount_last : nlCount "└── " = 0 := by decide

theorem nlCount_bar : nlCount "│   " = 0 := by decide

theorem nlCount_sp : nlCount "    " = 0 := by decide

theorem nlCount_nl : nlCount "\n" = 1 := by decide

/-- In a successful walk every processed entry contributes exactly one
newline for its own line plus the newlines of its subtree, so the
appended text holds one line per visible entry reachable from the
listing (newline-free names assumed). -/
theorem walk_nlCount :
    (∀ (fs : FSNode) (pfx acc : String),
        nlCount pfx = 0 → nlFreeN fs = true →
        ∀ s, walk_directory fs pfx acc = (none, s) →
          nlCount s = nlCount acc + visCountN fs) ∧
    (∀ (l : List FSNode) (pfx acc : String),
        nlCount pfx = 0 → (∀ c ∈ l, visible c = true) →
        (∀ c ∈ l, nlFreeN c = true) →
        ∀ s, walkEntries l pfx acc = (none, s) →
          nlCount s = nlCount acc + visCountL l) := by
  apply walk_directory.mutual_induct
    (fun fs pfx acc =>
      nlCount pfx = 0 → nlFreeN fs = true →
      ∀ s, walk_directory fs pfx acc = (none, s) →
        nlCount s = nlCount acc + visCountN fs)
    (fun l pfx acc =>
      nlCount pfx = 0 → (∀ c ∈ l, visible c = true) →
      (∀ c ∈ l, nlFreeN c = true) →
      ∀ s, walkEntries l pfx acc = (none, s) →
        nlCount s = nlCount acc + visCountL l)
  · intro pfx acc n _ _ s hs
    rw [walk_file_eq] at hs
    simp at hs
  · intro pfx acc n err _ _ s hs
    rw [walk_badDir_eq] at hs
    simp at hs
  · intro pfx acc n cs ih hp hf s hs
    rw [walk_dir_eq] at hs
    have h1 : ∀ c ∈ sortFilter cs, visible c = true := by
      intro c hc
      exact ((mem_sortFilter_iff c cs).mp hc).2
    have hfl : nlFreeL cs = true := nlFreeN_children hf
    have h2 : ∀ c ∈ sortFilter cs, nlFreeN c = true := by
      intro c hc
      exact nlFreeL_mem ((mem_sortFilter_iff c cs).mp hc).1 hfl
    have hcount := ih hp h1 h2 s hs
    rw [hcount, visCountL_sortFilter]
    simp [visCountN]
  · intro pfx acc _ _ _ s hs
    rw [walkEntries_nil] at hs
    have hsa : acc = s := by
      simpa using hs
    subst hsa
    simp [visCountL]
  · intro pfx acc c cs hdir err acc2 hw ihw hp hv hnl s hs
    rw [walkEntries_cons] at hs
    cases hE : cs.isEmpty
    · simp [hE, hdir] at hw hs
      rw [hw] at hs
      simp at hs
    · simp [hE, hdir] at hw hs
      rw [hw] at hs
      simp at hs
  · intro pfx acc c cs hdir acc2 hw ihw ih hp hv hnl s hs
    have hvc : visible c = true := hv c (List.mem_cons_self c cs)
    have hnc : nlFreeN c = true := hnl c (List.mem_cons_self c cs)
    have hnm : nlCount c.name = 0 := nlFreeN_name hnc
    have hv' : ∀ d ∈ cs, visible d = true := by
      intro d hd
      exact hv d (List.mem_cons_of_mem c hd)
    have hnl' : ∀ d ∈ cs, nlFreeN d = true := by
      intro d hd
      exact hnl d (List.mem_cons_of_mem c hd)
    rw [walkEntries_cons] at hs
    cases hE : cs.isEmpty
    · simp [hE, hdir] at hw ihw hs
      rw [hw] at hs
      simp at hs
      have hp' : nlCount (pfx ++ "│   ") = 0 := by
        simp [nlCount_append, hp, nlCount_bar]
      have h1 := ihw hp' hnc acc2 hw
      simp [nlCount_append, hp, hnm, nlCount_tee, nlCount_nl] at h1
      have h2 := ih hp hv' hnl' s hs
      simp [visCountL, hvc]
      omega
    · simp [hE, hdir] at hw ihw hs
      rw [hw] at hs
      simp at hs
      have hp' : nlCount (pfx ++ "    ") = 0 := by
        simp [nlCount_append, hp, nlCount_sp]
      have h1 := ihw hp' hnc acc2 hw
      simp [nlCount_append, hp, hnm, nlCount_last, nlCount_nl] at h1
      have h2 := ih hp hv' hnl' s hs
      simp [visCountL, hvc]
      omega
  · intro pfx acc c cs hdir ih hp hv hnl s hs
    have hvc : visible c = true := hv c (List.mem_cons_self c cs)
    have hnc : nlFreeN c = true := hnl c (List.mem_cons_self c cs)
    have hnm : nlCount c.name = 0 := nlFreeN_name hnc
    have hv' : ∀ d ∈ cs, visible d = true := by
      intro d hd
      exact hv d (List.mem_cons_of_mem c hd)
    have hnl' : ∀ d ∈ cs, nlFreeN d = true := by
      intro d hd
      exact hnl d (List.mem_cons_of_mem c hd)
    have hc0 : visCountN c = 0 := visCountN_of_not_isDir hdir
    rw [walkEntries_cons] at hs
    cases hE : cs.isEmpty
    · simp [hE] at ih
      simp [hE, hdir] at hs
      have h2 := ih hp hv' hnl' s hs
      simp [nlCount_append, hp, hnm, nlCount_tee, nlCount_nl] at h2
      simp [visCountL, hvc, hc0]
      omega
    · simp [hE] at ih
      simp [hE, hdir] at hs
      have h2 := ih hp hv' hnl' s hs
      simp [nlCount_append, hp, hnm, nlCount_last, nlCount_nl] at h2
      simp [visCountL, hvc, hc0]
      omega

/-- C3 fails as stated, in three ways at concrete inputs.  First, the
first output line is not the root path exactly as the caller supplied
it: `Path(root_dir)` normalizes the textual path, so the supplied
`"root/"` renders as `"root"` — for an empty directory the output is
`"root\n"`, not `"root/\n"`.  Second, "one line per visible entry"
fails when an entry name contains a newline: a directory holding the
single visible file `"a\nb"` renders with three lines (three
newline-terminated lines in the output) where the claim predicts two
(root plus one entry).  Third, the same failure arises from a newline
inside the root path itself: root `"x\ny"` over an empty directory
yields two lines though there are no entries. -/
theorem C3_counterexample :
    (render "root/" (FSNode.dir "root" []) = Except.ok ("root" ++ "\n") ∧
      ("root" ++ "\n" : String) ≠ "root/" ++ "\n") ∧
    (render "root" (FSNode.dir "root" [FSNode.file "a\nb"]) =
        Except.ok "root\n└── a\nb\n" ∧
      nlCount "root\n└── a\nb\n" = 3 ∧
      1 + visCountN (FSNode.dir "root" [FSNode.file "a\nb"]) = 2) ∧
    (render "x\ny" (FSNode.dir "d" []) = Except.ok ("x\ny" ++ "\n") ∧
      nlCount ("x\ny" ++ "\n") = 2 ∧
      1 + visCountN (FSNode.dir "d" []) = 1) := by
  refine ⟨⟨?_, by decide⟩, ⟨?_, by decide, by decide⟩,
    ⟨?_, by decide, by decide⟩⟩
  · simp only [render, DirectoryTree.ofPath, DirectoryTree.generate_tree,
      walk_dir_eq, show sortFilter ([] : List FSNode) = [] from rfl,
      walkEntries_nil]
    simp only [Except.ok.injEq]
    decide
  · simp only [render, DirectoryTree.ofPath, DirectoryTree.generate_tree,
      walk_dir_eq,
      show sortFilter [FSNode.file "a\nb"] = [FSNode.file "a\nb"]
        from rfl,
      walkEntries_cons, walkEntries_nil, FSNode.isDir, FSNode.name,
      List.isEmpty_nil, if_true, if_false, Bool.false_eq_true]
    simp only [Except.ok.injEq]
    decide
  · simp only [render, DirectoryTree.ofPath, DirectoryTree.generate_tree,
      walk_dir_eq, show sortFilter ([] : List FSNode) = [] from rfl,
      walkEntries_nil]
    simp only [Except.ok.injEq]
    decide

/-- C3 amended: the first line of a successful render is
`str(Path(rootPath))` — the supplied path after `pathlib`
normalization, verbatim only when the path is already in normal form —
and, provided the normalized root path and the entry names contain no
newline character, it is followed by exactly one line per visible
entry reachable by recursive descent (the output's newline count is
one for the root line plus one per visible entry). -/
theorem C3_first_line_amended (p : String) (fs : FSNode) (s : String)
    (h : render p fs = Except.ok s) (hf : nlFreeN fs = true)
    (hp : nlCount (normalizePath p) = 0) :
    s = normalizePath p ++ "\n" ++ treeBody fs ∧
    nlCount s = 1 + visCountN fs := by
  cases hfe : firstErr fs with
  | none =>
    rw [render_eq, hfe] at h
    have hs : s = normalizePath p ++ "\n" ++ treeBody fs := by
      simpa [eq_comm] using h
    refine ⟨hs, ?_⟩
    have hwz : walk_directory fs "" "" = (none, treeBody fs) := by
      have h1 : (walk_directory fs "" "").1 = none := by
        rw [walk_err_eq_firstErr.1 fs "" "", hfe]
      exact Prod.ext h1 rfl
    have hcount := walk_nlCount.1 fs "" "" (by decide) hf (treeBody fs) hwz
    have hz : nlCount "" = 0 := rfl
    rw [hz] at hcount
    rw [hs]
    simp [nlCount_append, hp, nlCount_nl]
    omega
  | some e =>
    rw [render_eq, hfe] at h
    exact absurd h (by simp)

/-- C3 witness: the amended statement at the example tree, whose render
has four lines: the root line plus its three visible entries. -/
theorem C3_first_line_amended_witness :
    render "root" exampleTree =
      Except.ok ("root\n├── A\n│   └── c.txt\n└── b.txt\n") ∧
    nlFreeN exampleTree = true ∧
    nlCount (normalizePath "root") = 0 ∧
    nlCount "root\n├── A\n│   └── c.txt\n└── b.txt\n" =
      1 + visCountN exampleTree := by
  have hsf : sortFilter [FSNode.dir ".hidden" [], FSNode.file "b.txt",
      FSNode.dir "A" [FSNode.file "c.txt"]] =
      [FSNode.dir "A" [FSNode.file "c.txt"], FSNode.file "b.txt"] := rfl
  have hsf2 : sortFilter [FSNode.file "c.txt"] = [FSNode.file "c.txt"] := rfl
  have h : render "root" exampleTree =
      Except.ok ("root\n├── A\n│   └── c.txt\n└── b.txt\n") := by
    simp only [exampleTree, render, DirectoryTree.ofPath,
      DirectoryTree.generate_tree, walk_dir_eq, hsf, hsf2, walkEntries_cons,
      walkEntries_nil, walk_file_eq, FSNode.isDir, FSNode.name,
      List.isEmpty_cons, List.isEmpty_nil, if_true, if_false,
      Bool.false_eq_true]
    simp only [Except.ok.injEq]
    decide
  have hf : nlFreeN exampleTree = true := by
    simp [exampleTree, nlFreeN, nlFreeL]
  have hp : nlCount (normalizePath "root") = 0 := by decide
  exact ⟨h, hf, hp,
    (C3_first_line_amended "root" exampleTree _ h hf hp).2⟩

/-- Shape of the text appended by a successful walk: with `GoodPfx pfx
k` the text appended below a node is exactly the `RendersSub`-rendering
of that node, and the text appended for an entry list is exactly its
`RendersAt`-block rendering (entry names, list order, connectors,
subtrees and depth groups all pinned to the tree). -/
theorem walk_renders :
    (∀ (fs : FSNode) (pfx acc : String) (k : Nat), GoodPfx pfx k →
        ∀ s, walk_directory fs pfx acc = (none, s) →
          ∃ b, s = acc ++ b ∧ RendersSub pfx k fs b) ∧
    (∀ (l : List FSNode) (pfx acc : String) (k : Nat), GoodPfx pfx k →
        ∀ s, walkEntries l pfx acc = (none, s) →
          ∃ b, s = acc ++ b ∧ RendersAt pfx k l b) := by
  apply walk_directory.mutual_induct
    (fun fs pfx acc => ∀ k : Nat, GoodPfx pfx k →
      ∀ s, walk_directory fs pfx acc = (none, s) →
        ∃ b, s = acc ++ b ∧ RendersSub pfx k fs b)
    (fun l pfx acc => ∀ k : Nat, GoodPfx pfx k →
      ∀ s, walkEntries l pfx acc = (none, s) →
        ∃ b, s = acc ++ b ∧ RendersAt pfx k l b)
  · intro pfx acc n k _ s hs
    rw [walk_file_eq] at hs
    simp at hs
  · intro pfx acc n err k _ s hs
    rw [walk_badDir_eq] at hs
    simp at hs
  · intro pfx acc n cs ih k hk s hs
    rw [walk_dir_eq] at hs
    rcases ih k hk s hs with ⟨b, hb, hR⟩
    exact ⟨b, hb, RendersSub.dir pfx k n cs b hR⟩
  · intro pfx acc k _ s hs
    rw [walkEntries_nil] at hs
    have hsa : acc = s := by
      simpa using hs
    refine ⟨"", ?_, RendersAt.nil pfx k⟩
    rw [String.append_empty, hsa]
  · intro pfx acc c cs hdir err acc2 hw ihw k hk s hs
    rw [walkEntries_cons] at hs
    cases hE : cs.isEmpty
    · simp [hE, hdir] at hw hs
      rw [hw] at hs
      simp at hs
    · simp [hE, hdir] at hw hs
      rw [hw] at hs
      simp at hs
  · intro pfx acc c cs hdir acc2 hw ihw ih k hk s hs
    rw [walkEntries_cons] at hs
    cases hE : cs.isEmpty
    · simp [hE, hdir] at hw ihw hs
      rw [hw] at hs
      simp at hs
      rcases ihw (k + 1) (GoodPfx.bar hk) acc2 hw with ⟨b1, hb1, hR1⟩
      rcases ih k hk s hs with ⟨b2, hb2, hR2⟩
      have hcsne : cs ≠ [] := by
        intro hnil
        rw [hnil] at hE
        simp at hE
      refine ⟨pfx ++ "├── " ++ c.name ++ "\n" ++ b1 ++ b2, ?_, ?_⟩
      · rw [hb2, hb1]
        simp [String.append_assoc]
      · exact RendersAt.mid c cs b1 b2 hk hcsne hR1 hR2
    · have hcs : cs = [] := List.isEmpty_iff.mp hE
      subst hcs
      simp [hdir] at hw ihw hs
      rw [hw] at hs
      simp only [] at hs
      have hsa : acc2 = s := by
        rw [walkEntries_nil] at hs
        simpa using hs
      rcases ihw (k + 1) (GoodPfx.sp hk) acc2 hw with ⟨b1, hb1, hR1⟩
      refine ⟨pfx ++ "└── " ++ c.name ++ "\n" ++ b1, ?_, ?_⟩
      · rw [← hsa, hb1]
        simp [String.append_assoc]
      · exact RendersAt.fin c b1 hk hR1
  · intro pfx acc c cs hdir ih k hk s hs
    cases c with
    | dir n cs' => simp [FSNode.isDir] at hdir
    | badDir n e => simp [FSNode.isDir] at hdir
    | file n =>
      rw [walkEntries_cons] at hs
      cases hE : cs.isEmpty
      · simp [hE] at ih
        simp [hE, hdir] at hs
        rcases ih k hk s hs with ⟨b2, hb2, hR2⟩
        have hcsne : cs ≠ [] := by
          intro hnil
          rw [hnil] at hE
          simp at hE
        refine ⟨pfx ++ "├── " ++ (FSNode.file n).name ++ "\n" ++ "" ++ b2,
          ?_, ?_⟩
        · rw [hb2]
          simp [String.append_assoc, String.append_empty, FSNode.name]
        · exact RendersAt.mid (FSNode.file n) cs "" b2 hk hcsne
            (RendersSub.file _ _ n) hR2
      · have hcs : cs = [] := List.isEmpty_iff.mp hE
        subst hcs
        simp [hdir] at hs
        rw [walkEntries_nil] at hs
        have hsa : acc ++ pfx ++ "└── " ++ (FSNode.file n).name ++ "\n" =
            s := by
          simpa [FSNode.name] using hs
        refine ⟨pfx ++ "└── " ++ (FSNode.file n).name ++ "\n" ++ "",
          ?_, ?_⟩
        · rw [← hsa]
          simp [String.append_assoc, String.append_empty]
        · exact RendersAt.fin (FSNode.file n) "" hk (RendersSub.file _ _ n)

/-- A successful walk with `firstErr` empty appends `treeBody`. -/
theorem walk_of_firstErr_none {fs : FSNode} (h : firstErr fs = none) :
    walk_directory fs "" "" = (none, treeBody fs) := by
  have h1 : (walk_directory fs "" "").1 = none := by
    rw [walk_err_eq_firstErr.1 fs "" "", h]
  exact Prod.ext h1 rfl

/-- C7: every successful render is the root line followed by the
`RendersSub`-rendering of the root node at the empty prefix and depth
0.  `RendersSub`/`RendersAt` pin the body to the tree itself: the
root's sorted visible children appear in order, each entry nested `k`
directories below the root contributes the line
`pfx ++ connector ++ name` whose prefix `pfx` satisfies `GoodPfx pfx k`
— exactly `k` four-character depth-indicator groups — followed by its
own subtree one group deeper; the group appended for a child is four
spaces exactly when its parent entry was the last visible sibling
(`RendersAt.fin`) and the continuation bar `"│   "` otherwise
(`RendersAt.mid`), so the prefix shape is preserved by every recursive
step. -/
theorem C7_depth_prefix_shape (p : String) (fs : FSNode) (s : String)
    (h : render p fs = Except.ok s) :
    ∃ body, s = normalizePath p ++ "\n" ++ body ∧
      RendersSub "" 0 fs body := by
  cases hfe : firstErr fs with
  | none =>
    rw [render_eq, hfe] at h
    have hs : s = normalizePath p ++ "\n" ++ treeBody fs := by
      simpa [eq_comm] using h
    rcases walk_renders.1 fs "" "" 0 GoodPfx.nil (treeBody fs)
        (walk_of_firstErr_none hfe) with ⟨b, hb, hR⟩
    have hb' : treeBody fs = b := by
      simpa using hb
    exact ⟨b, by rw [hs, hb'], hR⟩
  | some e =>
    rw [render_eq, hfe] at h
    exact absurd h (by simp)

/-- C7 witness: the example render decomposes into the root line and
the pinned rendering of the example tree. -/
theorem C7_depth_prefix_shape_witness :
    render "root" exampleTree =
      Except.ok ("root\n├── A\n│   └── c.txt\n└── b.txt\n") ∧
    ∃ body, ("root\n├── A\n│   └── c.txt\n└── b.txt\n" : String) =
      normalizePath "root" ++ "\n" ++ body ∧
      RendersSub "" 0 exampleTree body := by
  have hsf : sortFilter [FSNode.dir ".hidden" [], FSNode.file "b.txt",
      FSNode.dir "A" [FSNode.file "c.txt"]] =
      [FSNode.dir "A" [FSNode.file "c.txt"], FSNode.file "b.txt"] := rfl
  have hsf2 : sortFilter [FSNode.file "c.txt"] = [FSNode.file "c.txt"] := rfl
  have h : render "root" exampleTree =
      Except.ok ("root\n├── A\n│   └── c.txt\n└── b.txt\n") := by
    simp only [exampleTree, render, DirectoryTree.ofPath,
      DirectoryTree.generate_tree, walk_dir_eq, hsf, hsf2, walkEntries_cons,
      walkEntries_nil, walk_file_eq, FSNode.isDir, FSNode.name,
      List.isEmpty_cons, List.isEmpty_nil, if_true, if_false,
      Bool.false_eq_true]
    simp only [Except.ok.injEq]
    decide
  exact ⟨h, C7_depth_prefix_shape "root" exampleTree _ h⟩

end Struc
